import Mathlib

/-!
A verification development for the determinant-finder core: the Matrix
entity (validated construction, element access, submatrix extraction) and
the DeterminantCalculator (Gaussian elimination with partial pivoting, in
its plain and step-tracing variants), plus a heap-based model of Python's
row-list aliasing used to verify that calculation never mutates the input
matrix.  Numbers are modelled as rationals (exact real arithmetic); Python
exceptions are modelled as an error enumeration carried by Except.
-/

namespace DetFinder

/-- A row of rational numbers (a Python list of floats). -/
abbrev Row := List ℚ

/-- Working matrix data: a Python list of row lists. -/
abbrev Mat := List Row

/-- Dynamically typed values supplied by callers to the Matrix constructor
and to the pre-flight validator (Python objects: numbers, lists, or
anything else). -/
inductive Val where
  | num (q : ℚ)
  | vlist (xs : List Val)
  | vstr (s : String)
  | vnone

/-- Error kinds of the core, the spec's taxonomy for the ValueError,
IndexError and ZeroDivisionError exits of the source. -/
inductive Err where
  | invalidShape
  | invalidElement
  | indexOutOfRange
  | notSquare
  | zeroDivision
deriving DecidableEq

/-- Python isinstance(row, list). -/
def Val.isList : Val → Bool
  | .vlist _ => true
  | _ => false

/-- Python len(row) for a row already known to be a list (0 otherwise). -/
def Val.listLen : Val → Nat
  | .vlist xs => xs.length
  | _ => 0

/-- The elements of a row value (empty for non-lists). -/
def Val.elems : Val → List Val
  | .vlist xs => xs
  | _ => []

/-- Python isinstance(element, (int, float)). -/
def Val.isNum : Val → Bool
  | .num _ => true
  | _ => false

/-- The numeric content of an element already known to be a number. -/
def Val.toQ : Val → ℚ
  | .num q => q
  | _ => 0

/-- The numeric content of a row already known to be a list of numbers
(the per-row copy row[:] performed by Matrix.__init__). -/
def Val.toRow (v : Val) : Row := v.elems.map Val.toQ

/-- The Matrix entity of matrix.py; the fields model the attributes
_data, _rows and _cols set by __init__ (the rows and cols properties
simply return the latter two). -/
structure Matrix where
  data : Mat
  rows : Nat
  cols : Nat
deriving DecidableEq

/-- The is_square property: self._rows == self._cols. -/
def Matrix.is_square (m : Matrix) : Bool := m.rows == m.cols

/-- Matrix.to_list returns a fresh copy of the contents; at the level of
values the copy is the contents themselves (the aliasing consequences of
copying are modelled separately by the heap model below). -/
def Matrix.to_list (m : Matrix) : Mat := m.data

/-- Matrix.__init__ together with Matrix._validate_matrix: the source's
validation checks in order (empty data, non-list rows, unequal row
lengths, non-numeric elements), then the deep copy of the data and the
recording of _rows = len(data) and _cols = len(data[0]). -/
def Matrix.make (d : List Val) : Except Err Matrix :=
  if d.isEmpty then .error .invalidShape
  else if !(d.all Val.isList) then .error .invalidShape
  else if !(d.all (fun r => r.listLen == (d.headD .vnone).listLen)) then .error .invalidShape
  else if !(d.all (fun r => r.elems.all Val.isNum)) then .error .invalidElement
  else .ok { data := d.map Val.toRow, rows := d.length, cols := (d.headD .vnone).listLen }

/-- Matrix.get_element with its bounds check. -/
def Matrix.get_element (m : Matrix) (r c : Nat) : Except Err ℚ :=
  if r < m.rows ∧ c < m.cols then .ok ((m.data.getD r []).getD c 0)
  else .error .indexOutOfRange

/-- Matrix.set_element with its bounds check; mutation is modelled as
returning the updated entity. -/
def Matrix.set_element (m : Matrix) (r c : Nat) (v : ℚ) : Except Err Matrix :=
  if r < m.rows ∧ c < m.cols then
    .ok { m with data := m.data.set r ((m.data.getD r []).set c v) }
  else .error .indexOutOfRange

/-- Matrix.get_submatrix: bounds check on the exclude indices, then the
two skipping loops over range(self._rows) and range(self._cols), then
construction of a new Matrix from the collected data, which re-runs the
constructor validation. -/
def Matrix.get_submatrix (m : Matrix) (er ec : Nat) : Except Err Matrix :=
  if er < m.rows ∧ ec < m.cols then
    let sub : Mat := ((List.range m.rows).filter (fun i => i != er)).map
      (fun i => ((List.range m.cols).filter (fun j => j != ec)).map
        (fun j => (m.data.getD i []).getD j 0))
    Matrix.make (sub.map (fun r => Val.vlist (r.map Val.num)))
  else .error .indexOutOfRange

/-- CalculateDeterminantUseCase.validate_matrix_data: the pre-flight
checks in source order, with the source's messages. -/
def validate_matrix_data (d : List Val) : Bool × String :=
  if d.isEmpty then (false, "Matrix cannot be empty")
  else if !(d.all Val.isList) then (false, "All rows must be lists")
  else if !(d.all (fun r => r.listLen == (d.headD .vnone).listLen)) then
    (false, "All rows must have the same length")
  else if !(d.all (fun r => r.elems.all Val.isNum)) then
    (false, "All elements must be numbers")
  else if d.length ≠ (d.headD .vnone).listLen then
    (false, "Matrix must be square to calculate determinant")
  else (true, "")

/-- matrix_data[i][j] (Python list indexing; wherever the source reads a
cell the indices are in range). -/
def getE (m : Mat) (i j : Nat) : ℚ := (m.getD i []).getD j 0

/-- The assignment matrix_data[i][j] = v. -/
def setE (m : Mat) (i j : Nat) (v : ℚ) : Mat := m.set i ((m.getD i []).set j v)

/-- The simultaneous assignment matrix_data[i], matrix_data[mr] =
matrix_data[mr], matrix_data[i]: both right-hand reads happen before the
two writes. -/
def swapRows (m : Mat) (i mr : Nat) : Mat :=
  (m.set i (m.getD mr [])).set mr (m.getD i [])

/-- The singularity / skip threshold 1e-10 of the source. -/
def tol : ℚ := 1 / 10000000000

/-- Python float division, which raises ZeroDivisionError on a zero
denominator. -/
def pydiv (a b : ℚ) : Except Err ℚ :=
  if b = 0 then .error .zeroDivision else .ok (a / b)

/-- The pivot-search loop shared by both calculator variants (and by the
heap model): max_row = cur; for k in ks: if f k > f cur: max_row = k,
where f k is abs(matrix_data[k][i]). -/
def maxRowLoop (f : Nat → ℚ) : Nat → List Nat → Nat
  | cur, [] => cur
  | cur, k :: ks => maxRowLoop f (if f k > f cur then k else cur) ks

/-- Pivot selection for column i: max_row = i; for k in range(i+1, n):
if abs(m[k][i]) > abs(m[max_row][i]): max_row = k. -/
def findMaxRow (m : Mat) (i n : Nat) : Nat :=
  maxRowLoop (fun k => |getE m k i|) i (List.range' (i + 1) (n - (i + 1)))

/-- The inner elimination loop over columns j in range(i, n):
matrix_data[k][j] -= factor * matrix_data[i][j]. -/
def subRow (m : Mat) (k i : Nat) (factor : ℚ) : List Nat → Mat
  | [] => m
  | j :: js => subRow (setE m k j (getE m k j - factor * getE m i j)) k i factor js

/-- The elimination loop over rows k in range(i+1, n): skip the row when
abs(m[k][i]) is not above the threshold, otherwise compute the factor by
dividing by the pivot and subtract factor times row i over the columns
js = range(i, n). -/
def elimK (i : Nat) (js : List Nat) : Mat → List Nat → Except Err Mat
  | m, [] => .ok m
  | m, k :: ks =>
    if |getE m k i| > tol then
      (pydiv (getE m k i) (getE m i i)).bind (fun factor => elimK i js (subRow m k i factor js) ks)
    else elimK i js m ks

/-- The outer loop of DeterminantCalculator.calculate over the pivot
columns is = range(n): pivot selection, conditional row swap with swap
counting, singular short-circuit (none), and elimination below the
pivot; on completion, the triangular matrix and the swap count. -/
def elimLoop (n : Nat) : Mat → Nat → List Nat → Except Err (Option (Mat × Nat))
  | m, swaps, [] => .ok (some (m, swaps))
  | m, swaps, i :: is =>
    let mr := findMaxRow m i n
    let m1 := if mr ≠ i then swapRows m i mr else m
    let s1 := if mr ≠ i then swaps + 1 else swaps
    if |getE m1 i i| < tol then .ok none
    else
      (elimK i (List.range' i (n - i)) m1 (List.range' (i + 1) (n - (i + 1)))).bind
        (fun m2 => elimLoop n m2 s1 is)

/-- Product of the first n diagonal elements. -/
def diagProd (m : Mat) (n : Nat) : ℚ := ((List.range n).map (fun i => getE m i i)).prod

/-- DeterminantCalculator.calculate: square check, private copy of the
matrix contents, triangularization, product of the diagonal, sign flip
for an odd number of row swaps; 0 on the singular short-circuit. -/
def calculate (mx : Matrix) : Except Err ℚ :=
  if mx.is_square = false then .error .notSquare
  else
    let md := mx.to_list
    let n := mx.rows
    (elimLoop n md 0 (List.range n)).bind (fun o =>
      match o with
      | none => .ok 0
      | some (mf, swaps) =>
        let d := (List.range n).foldl (fun d i => d * getE mf i i) 1
        .ok (if swaps % 2 = 1 then -d else d))

/-- Abstract trace entries: one constructor per steps.append site of
calculate_with_steps.  The formatted text of each line is presentation
(the spec itself excludes exact formatting from the contract); each entry
carries the data interpolated into the source's f-string. -/
inductive Step where
  | header (r c : Nat)
  | separator
  | initialLabel
  | matrixRow (row : Row)
  | stepHeader (i : Nat)
  | swapNotice (i mr swaps : Nat)
  | pivotZero
  | detZero
  | pivotValue (v : ℚ)
  | elimFactor (k : Nat) (a b factor : ℚ)
  | rowOp (k : Nat) (factor : ℚ) (i : Nat)
  | finalTriangularLabel
  | calcDetLabel
  | diagElem (i : Nat) (v : ℚ)
  | productFirst (v : ℚ)
  | productNext (d v : ℚ)
  | signChangeNote (swaps : Nat)
  | finalDetNegLine (a v : ℚ)
  | noSignChangeNote (swaps : Nat)
  | finalDetLine (v : ℚ)

/-- _add_matrix_to_steps: one trace line per row of the working matrix. -/
def snap (m : Mat) : List Step := m.map Step.matrixRow

/-- The inner elimination loop of calculate_with_steps: the same updates
as subRow, plus the row-operation line appended when j = i. -/
def subRowS (k i : Nat) (factor : ℚ) : Mat → List Step → List Nat → Mat × List Step
  | m, st, [] => (m, st)
  | m, st, j :: js =>
    let m2 := setE m k j (getE m k j - factor * getE m i j)
    let st2 := if j = i then st ++ [Step.rowOp k factor i] else st
    subRowS k i factor m2 st2 js

/-- The per-row elimination loop of calculate_with_steps: the factor line
before the column loop and the matrix snapshot after it. -/
def elimKS (i : Nat) (js : List Nat) : Mat → List Step → List Nat → Except Err (Mat × List Step)
  | m, st, [] => .ok (m, st)
  | m, st, k :: ks =>
    if |getE m k i| > tol then
      (pydiv (getE m k i) (getE m i i)).bind (fun factor =>
        let p := subRowS k i factor m (st ++ [Step.elimFactor k (getE m k i) (getE m i i) factor]) js
        elimKS i js p.1 (p.2 ++ snap p.1) ks)
    else elimKS i js m st ks

/-- The outer loop of calculate_with_steps: the same numeric steps as
elimLoop, interleaved with the trace lines the source appends (step
header, swap notice plus snapshot, zero-pivot lines on the singular
short-circuit, pivot value, elimination sub-trace). -/
def elimLoopS (n : Nat) : Mat → Nat → List Step → List Nat → Except Err (Option (Mat × Nat) × List Step)
  | m, swaps, st, [] => .ok (some (m, swaps), st)
  | m, swaps, st, i :: is =>
    let st0 := st ++ [Step.stepHeader i]
    let mr := findMaxRow m i n
    let m1 := if mr ≠ i then swapRows m i mr else m
    let s1 := if mr ≠ i then swaps + 1 else swaps
    let st1 := if mr ≠ i then st0 ++ [Step.swapNotice i mr (swaps + 1)] ++ snap (swapRows m i mr) else st0
    if |getE m1 i i| < tol then .ok (none, st1 ++ [Step.pivotZero, Step.detZero])
    else
      (elimKS i (List.range' i (n - i)) m1 (st1 ++ [Step.pivotValue (getE m1 i i)])
        (List.range' (i + 1) (n - (i + 1)))).bind (fun p => elimLoopS n p.1 s1 p.2 is)

/-- The product-accumulation loop of calculate_with_steps over the
collected diagonal elements, with its running-product lines (the source
prints the updated product in the non-first lines). -/
def productSteps : ℚ → Bool → List Step → List ℚ → ℚ × List Step
  | d, _, st, [] => (d, st)
  | d, first, st, v :: vs =>
    let d2 := d * v
    let line := if first then Step.productFirst v else Step.productNext d2 v
    productSteps d2 false (st ++ [line]) vs

/-- DeterminantCalculator.calculate_with_steps: the same algorithm as
calculate, additionally building the trace (header lines, initial
snapshot, per-column trace, final triangular snapshot, diagonal lines,
running product, sign-adjustment lines). -/
def calculate_with_steps (mx : Matrix) : Except Err (ℚ × List Step) :=
  if mx.is_square = false then .error .notSquare
  else
    let md := mx.to_list
    let n := mx.rows
    let st1 := [Step.header mx.rows mx.cols, Step.separator, Step.initialLabel] ++ snap md
    (elimLoopS n md 0 st1 (List.range n)).bind (fun q =>
    match q with
    | (none, st) => .ok (0, st)
    | (some (mf, swaps), st) =>
      let st2 := st ++ [Step.finalTriangularLabel] ++ snap mf ++ [Step.calcDetLabel]
      let dps := (List.range n).map (fun i => getE mf i i)
      let st3 := st2 ++ (List.range n).map (fun i => Step.diagElem i (getE mf i i))
      let p := productSteps 1 true st3 dps
      if swaps % 2 = 1 then
        .ok (-p.1, p.2 ++ [Step.signChangeNote swaps, Step.finalDetNegLine |(-p.1)| (-p.1)])
      else
        .ok (p.1, p.2 ++ [Step.noSignChangeNote swaps, Step.finalDetLine p.1]))

/-!
Heap model.  Python's matrix_data is a list of references to row objects;
mutation happens on the row objects.  To verify that calculate and
calculate_with_steps never mutate the input Matrix, the same source lines
are modelled over an explicit heap of row objects: Matrix._data is a list
of row ids, to_list allocates fresh copies of the rows, and the
elimination writes through row ids.  The trace of the step variant writes
no rows and is omitted here; its extra per-row copy of the to_list result
is kept.
-/

/-- The heap of row objects, indexed by row id (allocation appends). -/
abbrev Heap := List Row

/-- Dereference a row id. -/
def hRead (h : Heap) (r : Nat) : Row := h.getD r []

/-- Overwrite the row object at a row id. -/
def hWrite (h : Heap) (r : Nat) (row : Row) : Heap := h.set r row

/-- The Matrix entity as a Python object: _data is a list of references
to row objects, _rows and _cols are the stored dimensions. -/
structure PyMatrix where
  rowIds : List Nat
  prows : Nat
  pcols : Nat

/-- One step of the to_list comprehension in the heap model: allocate a
fresh copy of the row at rid and record its fresh id. -/
def tlStep (p : Heap × List Nat) (rid : Nat) : Heap × List Nat :=
  (p.1 ++ [hRead p.1 rid], p.2 ++ [p.1.length])

/-- Matrix.to_list in the heap model: the comprehension allocates one
fresh copy of each row, in order, and returns the list of fresh ids. -/
def to_listH (h : Heap) (ids : List Nat) : Heap × List Nat :=
  ids.foldl tlStep (h, [])

/-- matrix_data[k][i] through the heap. -/
def getEH (h : Heap) (ids : List Nat) (k i : Nat) : ℚ :=
  (hRead h (ids.getD k 0)).getD i 0

/-- matrix_data[k][j] = v through the heap: mutates the row object. -/
def setEH (h : Heap) (ids : List Nat) (k j : Nat) (v : ℚ) : Heap :=
  hWrite h (ids.getD k 0) ((hRead h (ids.getD k 0)).set j v)

/-- The row swap in the heap model: matrix_data holds references, so the
swap permutes the reference list and leaves the heap untouched. -/
def swapIds (ids : List Nat) (i mr : Nat) : List Nat :=
  (ids.set i (ids.getD mr 0)).set mr (ids.getD i 0)

/-- Pivot selection through the heap. -/
def findMaxRowH (h : Heap) (ids : List Nat) (i n : Nat) : Nat :=
  maxRowLoop (fun k => |getEH h ids k i|) i (List.range' (i + 1) (n - (i + 1)))

/-- The inner elimination loop through the heap. -/
def subRowH (ids : List Nat) (k i : Nat) (factor : ℚ) : Heap → List Nat → Heap
  | h, [] => h
  | h, j :: js =>
    subRowH ids k i factor (setEH h ids k j (getEH h ids k j - factor * getEH h ids i j)) js

/-- The per-row elimination loop through the heap. -/
def elimKH (ids : List Nat) (i : Nat) (js : List Nat) : Heap → List Nat → Except Err Heap
  | h, [] => .ok h
  | h, k :: ks =>
    if |getEH h ids k i| > tol then
      (pydiv (getEH h ids k i) (getEH h ids i i)).bind
        (fun factor => elimKH ids i js (subRowH ids k i factor h js) ks)
    else elimKH ids i js h ks

/-- The outer elimination loop through the heap; returns the final heap
together with the reference list and swap count (none on the singular
short-circuit, which also returns the heap as left at that point). -/
def elimLoopH (n : Nat) : Heap → List Nat → Nat → List Nat → Except Err (Heap × Option (List Nat × Nat))
  | h, ids, swaps, [] => .ok (h, some (ids, swaps))
  | h, ids, swaps, i :: is =>
    let mr := findMaxRowH h ids i n
    let ids1 := if mr ≠ i then swapIds ids i mr else ids
    let s1 := if mr ≠ i then swaps + 1 else swaps
    if |getEH h ids1 i i| < tol then .ok (h, none)
    else
      (elimKH ids1 i (List.range' i (n - i)) h (List.range' (i + 1) (n - (i + 1)))).bind
        (fun h2 => elimLoopH n h2 ids1 s1 is)

/-- DeterminantCalculator.calculate in the heap model: copy the matrix
contents via to_list, run the elimination on the copies, return the
result and the final heap. -/
def calculateH (h : Heap) (mx : PyMatrix) : Except Err (ℚ × Heap) :=
  if (mx.prows == mx.pcols) = false then .error .notSquare
  else
    let p := to_listH h mx.rowIds
    let n := mx.prows
    (elimLoopH n p.1 p.2 0 (List.range n)).bind (fun q =>
      match q with
      | (h2, none) => .ok (0, h2)
      | (h2, some (ids2, swaps)) =>
        let d := (List.range n).foldl (fun d i => d * getEH h2 ids2 i i) 1
        .ok ((if swaps % 2 = 1 then -d else d), h2))

/-- calculate_with_steps in the heap model: identical heap operations,
except that its working list is a second per-row copy of the to_list
result ([row[:] for row in matrix.to_list()]); the trace itself performs
no heap writes and is omitted. -/
def calculate_with_stepsH (h : Heap) (mx : PyMatrix) : Except Err (ℚ × Heap) :=
  if (mx.prows == mx.pcols) = false then .error .notSquare
  else
    let p := to_listH h mx.rowIds
    let p2 := to_listH p.1 p.2
    let n := mx.prows
    (elimLoopH n p2.1 p2.2 0 (List.range n)).bind (fun q =>
      match q with
      | (h2, none) => .ok (0, h2)
      | (h2, some (ids2, swaps)) =>
        let d := (List.range n).foldl (fun d i => d * getEH h2 ids2 i i) 1
        .ok ((if swaps % 2 = 1 then -d else d), h2))

/-! Basic list-access lemmas. -/

theorem getD_set_ne {α : Type} (l : List α) (i j : Nat) (a d : α) (h : i ≠ j) :
    (l.set i a).getD j d = l.getD j d := by
  simp [List.getD_eq_getElem?_getD, List.getElem?_set_ne h]

theorem getD_set_self {α : Type} (l : List α) (i : Nat) (a d : α) (h : i < l.length) :
    (l.set i a).getD i d = a := by
  simp [List.getD_eq_getElem?_getD, List.getElem?_set_self h]

theorem getD_mem {α : Type} (l : List α) (k : Nat) (d : α) (h : k < l.length) :
    l.getD k d ∈ l := by
  rw [List.getD_eq_getElem?_getD, List.getElem?_eq_getElem h]
  exact List.getElem_mem h

theorem getD_append_left {α : Type} (l l2 : List α) (r : Nat) (d : α) (h : r < l.length) :
    (l ++ l2).getD r d = l.getD r d := by
  simp [List.getD_eq_getElem?_getD, List.getElem?_append_left h]

/-! Reduction lemmas for Except, and two congruence lemmas for projecting
the trace component out of a bind. -/

theorem ebind_ok {e a b : Type} (x : a) (f : a → Except e b) :
    (Except.ok x).bind f = f x := rfl

theorem ebind_error {e a b : Type} (x : e) (f : a → Except e b) :
    (Except.error x : Except e a).bind f = .error x := rfl

theorem emap_ok {e a b : Type} (f : a → b) (x : a) :
    Except.map f (.ok x : Except e a) = .ok (f x) := rfl

theorem emap_error {e a b : Type} (f : a → b) (x : e) :
    Except.map f (.error x : Except e a) = (.error x : Except e b) := rfl

theorem fst_bind_ok {e a b c : Type} (x : Except e a)
    (f : a → Except e (b × c)) (g : a → Except e b)
    (hfg : ∀ v, Except.map Prod.fst (f v) = g v) :
    Except.map Prod.fst (x.bind f) = x.bind g := by
  cases x with
  | error v => rfl
  | ok v => exact hfg v

theorem fst_bind_pair {e a b c d : Type} (x : Except e (a × d)) (y : Except e a)
    (hxy : Except.map Prod.fst x = y) (f : a × d → Except e (b × c)) (g : a → Except e b)
    (hfg : ∀ p, Except.map Prod.fst (f p) = g p.1) :
    Except.map Prod.fst (x.bind f) = y.bind g := by
  subst hxy
  cases x with
  | error v => rfl
  | ok p => exact hfg p

/-! Specification of the pivot-search loop: it returns the first index
attaining the maximum of f over the candidates (the initial candidate
cur followed by the ascending range), because only a strictly greater
value displaces the current maximum. -/

theorem maxRowLoop_spec (f : Nat → ℚ) :
    ∀ (len j cur : Nat), cur < j →
    ∃ r, maxRowLoop f cur (List.range' j len) = r ∧
      (r = cur ∨ (j ≤ r ∧ r < j + len)) ∧ cur ≤ r ∧ f cur ≤ f r ∧
      (∀ k, j ≤ k → k < j + len → f k ≤ f r) ∧
      (cur < r → f cur < f r) ∧
      (∀ k, j ≤ k → k < j + len → k < r → f k < f r) := by
  intro len
  induction len with
  | zero =>
    intro j cur _
    refine ⟨cur, rfl, Or.inl rfl, le_refl _, le_refl _, ?_, ?_, ?_⟩
    · intro k hk hk2; omega
    · intro h; omega
    · intro k hk hk2; omega
  | succ len ih =>
    intro j cur hcj
    rw [show List.range' j (len + 1) = j :: List.range' (j + 1) len from List.range'_succ j len 1]
    by_cases hfj : f j > f cur
    · have hstep : maxRowLoop f cur (j :: List.range' (j + 1) len) =
          maxRowLoop f j (List.range' (j + 1) len) := by
        simp [maxRowLoop, hfj]
      obtain ⟨r, hr, hA, hB, hC, hD, hE, hF⟩ := ih (j + 1) j (Nat.lt_succ_self j)
      refine ⟨r, hstep.trans hr, ?_, ?_, ?_, ?_, ?_, ?_⟩
      · right
        rcases hA with h | h
        · omega
        · omega
      · omega
      · exact le_of_lt (lt_of_lt_of_le hfj hC)
      · intro k hk1 hk2
        rcases Nat.eq_or_lt_of_le hk1 with h | h
        · exact h ▸ hC
        · exact hD k h (by omega)
      · intro _; exact lt_of_lt_of_le hfj hC
      · intro k hk1 hk2 hkr
        rcases Nat.eq_or_lt_of_le hk1 with h | h
        · subst h; exact hE (by omega)
        · exact hF k h (by omega) hkr
    · have hstep : maxRowLoop f cur (j :: List.range' (j + 1) len) =
          maxRowLoop f cur (List.range' (j + 1) len) := by
        simp [maxRowLoop, hfj]
      obtain ⟨r, hr, hA, hB, hC, hD, hE, hF⟩ := ih (j + 1) cur (by omega)
      have hfj2 : f j ≤ f cur := le_of_not_lt hfj
      refine ⟨r, hstep.trans hr, ?_, hB, hC, ?_, hE, ?_⟩
      · rcases hA with h | h
        · exact Or.inl h
        · exact Or.inr (by omega)
      · intro k hk1 hk2
        rcases Nat.eq_or_lt_of_le hk1 with h | h
        · exact h ▸ (le_trans hfj2 hC)
        · exact hD k h (by omega)
      · intro k hk1 hk2 hkr
        rcases Nat.eq_or_lt_of_le hk1 with h | h
        · subst h
          have hcr : cur < r := by omega
          exact lt_of_le_of_lt hfj2 (hE hcr)
        · exact hF k h (by omega) hkr

/-- Specification of findMaxRow for a column i with i < n: the selected
pivot row lies in the interval from i to n, carries the largest absolute
value in column i there, and every earlier candidate row is strictly
smaller in absolute value (first occurrence wins). -/
theorem findMaxRow_spec (m : Mat) (i n : Nat) (h : i < n) :
    i ≤ findMaxRow m i n ∧ findMaxRow m i n < n ∧
    (∀ k, i ≤ k → k < n → |getE m k i| ≤ |getE m (findMaxRow m i n) i|) ∧
    (∀ k, i ≤ k → k < findMaxRow m i n → |getE m k i| < |getE m (findMaxRow m i n) i|) := by
  obtain ⟨r, hr, hA, hB, hC, hD, hE, hF⟩ :=
    maxRowLoop_spec (fun k => |getE m k i|) (n - (i + 1)) (i + 1) i (Nat.lt_succ_self i)
  have hrange : i + 1 + (n - (i + 1)) = n := by omega
  rw [hrange] at hA hD hF
  have hfr : findMaxRow m i n = r := hr
  rw [hfr]
  refine ⟨hB, ?_, ?_, ?_⟩
  · rcases hA with h1 | h1
    · omega
    · omega
  · intro k hk1 hk2
    rcases Nat.eq_or_lt_of_le hk1 with h1 | h1
    · exact h1 ▸ hC
    · exact hD k h1 hk2
  · intro k hk1 hkr
    rcases Nat.eq_or_lt_of_le hk1 with h1 | h1
    · subst h1; exact hE hkr
    · have hkn : k < n := by
        rcases hA with h2 | h2
        · omega
        · omega
      exact hF k h1 hkn hkr

/-! The elimination only writes to row k, so every other row — in
particular the pivot row i — is unchanged by subRow, and the pivot stays
nonzero throughout elimK; hence the division is always guarded and the
elimination loop can only exit successfully. -/

theorem tol_pos : (0 : ℚ) < tol := by norm_num [tol]

theorem subRow_getD_ne (k i : Nat) (f : ℚ) (r : Nat) (hrk : r ≠ k) :
    ∀ (js : List Nat) (m : Mat), (subRow m k i f js).getD r [] = m.getD r [] := by
  intro js
  induction js with
  | nil => intro m; rfl
  | cons j js ih =>
    intro m
    rw [subRow, ih]
    exact getD_set_ne _ _ _ _ _ (fun h => hrk h.symm)

theorem getE_subRow_ne (k i : Nat) (f : ℚ) (r c : Nat) (hrk : r ≠ k) (js : List Nat) (m : Mat) :
    getE (subRow m k i f js) r c = getE m r c := by
  unfold getE
  rw [subRow_getD_ne k i f r hrk js m]

theorem elimK_ok (i : Nat) (js : List Nat) :
    ∀ (ks : List Nat) (m : Mat), (∀ k ∈ ks, k ≠ i) → tol ≤ |getE m i i| →
    ∃ m2, elimK i js m ks = .ok m2 := by
  intro ks
  induction ks with
  | nil => intro m _ _; exact ⟨m, rfl⟩
  | cons k ks ih =>
    intro m hne hpiv
    have hk : k ≠ i := hne k (List.mem_cons_self k ks)
    have hden : getE m i i ≠ 0 := by
      intro h0
      rw [h0] at hpiv
      simp at hpiv
      exact absurd hpiv (not_le_of_lt tol_pos)
    by_cases hbig : |getE m k i| > tol
    · have hdiv : pydiv (getE m k i) (getE m i i) = .ok (getE m k i / getE m i i) := by
        simp [pydiv, hden]
      have hpiv2 : tol ≤ |getE (subRow m k i (getE m k i / getE m i i) js) i i| := by
        rw [getE_subRow_ne k i _ i i (fun h => hk h.symm) js m]
        exact hpiv
      obtain ⟨m2, hm2⟩ := ih (subRow m k i (getE m k i / getE m i i) js)
        (fun x hx => hne x (List.mem_cons_of_mem k hx)) hpiv2
      exact ⟨m2, by rw [elimK, if_pos hbig, hdiv, ebind_ok, hm2]⟩
    · obtain ⟨m2, hm2⟩ := ih m (fun x hx => hne x (List.mem_cons_of_mem k hx)) hpiv
      exact ⟨m2, by rw [elimK, if_neg hbig, hm2]⟩

theorem elimLoop_ok (n : Nat) :
    ∀ (is : List Nat) (m : Mat) (swaps : Nat), ∃ r, elimLoop n m swaps is = .ok r := by
  intro is
  induction is with
  | nil => intro m swaps; exact ⟨some (m, swaps), rfl⟩
  | cons i is ih =>
    intro m swaps
    rw [elimLoop]
    set mr := findMaxRow m i n with hmr
    set m1 := if mr ≠ i then swapRows m i mr else m with hm1
    set s1 := if mr ≠ i then swaps + 1 else swaps with hs1
    by_cases hpiv : |getE m1 i i| < tol
    · exact ⟨none, by rw [if_pos hpiv]⟩
    · have hks : ∀ k ∈ List.range' (i + 1) (n - (i + 1)), k ≠ i := by
        intro k hk
        have := (List.mem_range'_1.mp hk).1
        omega
      obtain ⟨m2, hm2⟩ := elimK_ok i (List.range' i (n - i)) (List.range' (i + 1) (n - (i + 1)))
        m1 hks (le_of_not_lt hpiv)
      obtain ⟨r, hr⟩ := ih m2 s1
      exact ⟨r, by rw [if_neg hpiv, hm2, ebind_ok, hr]⟩

/-! Projection lemmas: the step-tracing loops compute exactly the same
numeric state as the plain loops, in the same order; dropping the trace
component recovers the plain functions. -/

theorem subRowS_fst (k i : Nat) (f : ℚ) :
    ∀ (js : List Nat) (m : Mat) (st : List Step),
    (subRowS k i f m st js).1 = subRow m k i f js := by
  intro js
  induction js with
  | nil => intro m st; rfl
  | cons j js ih => intro m st; rw [subRowS, subRow, ih]

theorem elimKS_fst (i : Nat) (js : List Nat) :
    ∀ (ks : List Nat) (m : Mat) (st : List Step),
    Except.map Prod.fst (elimKS i js m st ks) = elimK i js m ks := by
  intro ks
  induction ks with
  | nil => intro m st; rfl
  | cons k ks ih =>
    intro m st
    simp only [elimKS, elimK]
    by_cases hbig : |getE m k i| > tol
    · rw [if_pos hbig, if_pos hbig]
      refine fst_bind_ok _ _ _ (fun factor => ?_)
      rw [subRowS_fst]
      exact ih _ _
    · rw [if_neg hbig, if_neg hbig]
      exact ih _ _

theorem elimLoopS_fst (n : Nat) :
    ∀ (is : List Nat) (m : Mat) (swaps : Nat) (st : List Step),
    Except.map Prod.fst (elimLoopS n m swaps st is) = elimLoop n m swaps is := by
  intro is
  induction is with
  | nil => intro m swaps st; rfl
  | cons i is ih =>
    intro m swaps st
    simp only [elimLoopS, elimLoop]
    by_cases hpiv : |getE (if findMaxRow m i n ≠ i then swapRows m i (findMaxRow m i n) else m) i i| < tol
    · rw [if_pos hpiv, if_pos hpiv]; rfl
    · rw [if_neg hpiv, if_neg hpiv]
      exact fst_bind_pair _ _ (elimKS_fst _ _ _ _ _) _ _ (fun p => ih p.1 _ p.2)

theorem productSteps_fst :
    ∀ (vs : List ℚ) (d : ℚ) (first : Bool) (st : List Step),
    (productSteps d first st vs).1 = vs.foldl (· * ·) d := by
  intro vs
  induction vs with
  | nil => intro d first st; rfl
  | cons v vs ih => intro d first st; rw [productSteps, List.foldl_cons, ih]

/-- The two code paths compute the same determinant (and fail alike):
dropping the trace from calculate_with_steps yields calculate. -/
theorem calc_eq_steps_fst (mx : Matrix) :
    calculate mx = Except.map Prod.fst (calculate_with_steps mx) := by
  unfold calculate calculate_with_steps
  by_cases hsq : mx.is_square = false
  · rw [if_pos hsq, if_pos hsq]; rfl
  · rw [if_neg hsq, if_neg hsq]
    refine (fst_bind_pair _ _ (elimLoopS_fst _ _ _ _ _) _ _ (fun q => ?_)).symm
    obtain ⟨o, st⟩ := q
    cases o with
    | none => rfl
    | some mfsw =>
      obtain ⟨mf, swaps⟩ := mfsw
      by_cases hsw : swaps % 2 = 1
      · simp only [if_pos hsw, emap_ok]
        rw [productSteps_fst, List.foldl_map]
      · simp only [if_neg hsw, emap_ok]
        rw [productSteps_fst, List.foldl_map]

/-! The singular short-circuit of the step variant always leaves the two
zero-pivot lines at the end of the trace. -/

theorem elimLoopS_none_suffix (n : Nat) :
    ∀ (is : List Nat) (m : Mat) (swaps : Nat) (st st2 : List Step),
    elimLoopS n m swaps st is = .ok (none, st2) →
    ∃ p, st2 = p ++ [Step.pivotZero, Step.detZero] := by
  intro is
  induction is with
  | nil =>
    intro m swaps st st2 h
    simp only [elimLoopS, Except.ok.injEq, Prod.mk.injEq] at h
    exact absurd h.1 (by simp)
  | cons i is ih =>
    intro m swaps st st2 h
    simp only [elimLoopS] at h
    by_cases hpiv : |getE (if findMaxRow m i n ≠ i then swapRows m i (findMaxRow m i n) else m) i i| < tol
    · rw [if_pos hpiv] at h
      simp only [Except.ok.injEq, Prod.mk.injEq] at h
      exact ⟨_, h.2.symm⟩
    · rw [if_neg hpiv] at h
      cases hks : elimKS i (List.range' i (n - i))
          (if findMaxRow m i n ≠ i then swapRows m i (findMaxRow m i n) else m)
          ((if findMaxRow m i n ≠ i then
              (st ++ [Step.stepHeader i]) ++ [Step.swapNotice i (findMaxRow m i n) (swaps + 1)] ++
                snap (swapRows m i (findMaxRow m i n))
            else st ++ [Step.stepHeader i]) ++
            [Step.pivotValue (getE (if findMaxRow m i n ≠ i then swapRows m i (findMaxRow m i n) else m) i i)])
          (List.range' (i + 1) (n - (i + 1))) with
      | error e => rw [hks, ebind_error] at h; exact absurd h (by simp)
      | ok p =>
        rw [hks, ebind_ok] at h
        exact ih p.1 _ p.2 st2 h

/-- If the plain loop reports singular, the step variant returns the pair
of zero and a trace ending in the zero-pivot detection line followed by
the determinant-is-zero line. -/
theorem calc_with_steps_none (mx : Matrix) (hsq : mx.is_square = true)
    (hloop : elimLoop mx.rows mx.to_list 0 (List.range mx.rows) = .ok none) :
    ∃ tr p2, calculate_with_steps mx = .ok (0, tr) ∧ tr = p2 ++ [Step.pivotZero, Step.detZero] := by
  have hproj := elimLoopS_fst mx.rows (List.range mx.rows) mx.to_list 0
    ([Step.header mx.rows mx.cols, Step.separator, Step.initialLabel] ++ snap mx.to_list)
  cases hls : elimLoopS mx.rows mx.to_list 0
      ([Step.header mx.rows mx.cols, Step.separator, Step.initialLabel] ++ snap mx.to_list)
      (List.range mx.rows) with
  | error e =>
    rw [hls, hloop, emap_error] at hproj
    exact absurd hproj (by simp)
  | ok q =>
    rw [hls, hloop, emap_ok] at hproj
    obtain ⟨o, st⟩ := q
    have ho : o = none := by
      simpa using hproj
    subst ho
    obtain ⟨p2, hp2⟩ := elimLoopS_none_suffix mx.rows (List.range mx.rows) mx.to_list 0 _ st hls
    refine ⟨st, p2, ?_, hp2⟩
    simp only [calculate_with_steps]
    rw [if_neg (by simp [hsq]), hls, ebind_ok]

/-! Characterization of the Matrix constructor. -/

theorem make_ok (d : List Val) (h1 : d ≠ [])
    (h2 : ∀ r ∈ d, r.isList = true)
    (h3 : ∀ r ∈ d, r.listLen = (d.headD .vnone).listLen)
    (h4 : ∀ r ∈ d, ∀ e ∈ r.elems, e.isNum = true) :
    Matrix.make d = .ok ⟨d.map Val.toRow, d.length, (d.headD .vnone).listLen⟩ := by
  have hc1 : ¬(d.isEmpty = true) := by simp [List.isEmpty_iff, h1]
  have hc2 : ¬((!(d.all Val.isList)) = true) := by
    simp only [Bool.not_eq_true', Bool.not_eq_false, List.all_eq_true]
    exact h2
  have hc3 : ¬((!(d.all (fun r => r.listLen == (d.headD .vnone).listLen))) = true) := by
    simp only [Bool.not_eq_true', Bool.not_eq_false, List.all_eq_true, beq_iff_eq]
    exact h3
  have hc4 : ¬((!(d.all (fun r => r.elems.all Val.isNum))) = true) := by
    simp only [Bool.not_eq_true', Bool.not_eq_false, List.all_eq_true]
    intro r hr
    exact h4 r hr
  rw [Matrix.make, if_neg hc1, if_neg hc2, if_neg hc3, if_neg hc4]

theorem make_err_shape (d : List Val)
    (h : d = [] ∨ (∃ r ∈ d, r.isList = false) ∨
      (∃ r ∈ d, r.listLen ≠ (d.headD .vnone).listLen)) :
    Matrix.make d = .error .invalidShape := by
  by_cases h1 : d = []
  · subst h1; rfl
  by_cases h2 : ∀ r ∈ d, r.isList = true
  · have hc1 : ¬(d.isEmpty = true) := by simp [List.isEmpty_iff, h1]
    have hc2 : ¬((!(d.all Val.isList)) = true) := by
      simp only [Bool.not_eq_true', Bool.not_eq_false, List.all_eq_true]
      exact h2
    have h3 : ∃ r ∈ d, r.listLen ≠ (d.headD .vnone).listLen := by
      rcases h with h | h | h
      · exact absurd h h1
      · obtain ⟨r, hr, hfalse⟩ := h
        exact absurd (h2 r hr) (by simp [hfalse])
      · exact h
    have hc3 : (!(d.all (fun r => r.listLen == (d.headD .vnone).listLen))) = true := by
      simp only [Bool.not_eq_true', List.all_eq_false]
      obtain ⟨r, hr, hne⟩ := h3
      exact ⟨r, hr, by simpa using hne⟩
    rw [Matrix.make, if_neg hc1, if_neg hc2, if_pos hc3]
  · have hc1 : ¬(d.isEmpty = true) := by simp [List.isEmpty_iff, h1]
    have hc2 : (!(d.all Val.isList)) = true := by
      simp only [Bool.not_eq_true', List.all_eq_false]
      push_neg at h2
      obtain ⟨r, hr, hne⟩ := h2
      exact ⟨r, hr, by simp [hne]⟩
    rw [Matrix.make, if_neg hc1, if_pos hc2]

theorem make_err_elem (d : List Val) (h1 : d ≠ [])
    (h2 : ∀ r ∈ d, r.isList = true)
    (h3 : ∀ r ∈ d, r.listLen = (d.headD .vnone).listLen)
    (h4 : ∃ r ∈ d, ∃ e ∈ r.elems, e.isNum = false) :
    Matrix.make d = .error .invalidElement := by
  have hc1 : ¬(d.isEmpty = true) := by simp [List.isEmpty_iff, h1]
  have hc2 : ¬((!(d.all Val.isList)) = true) := by
    simp only [Bool.not_eq_true', Bool.not_eq_false, List.all_eq_true]
    exact h2
  have hc3 : ¬((!(d.all (fun r => r.listLen == (d.headD .vnone).listLen))) = true) := by
    simp only [Bool.not_eq_true', Bool.not_eq_false, List.all_eq_true, beq_iff_eq]
    exact h3
  have hc4 : (!(d.all (fun r => r.elems.all Val.isNum))) = true := by
    simp only [Bool.not_eq_true', List.all_eq_false]
    obtain ⟨r, hr, e, he, hfalse⟩ := h4
    refine ⟨r, hr, fun hall => ?_⟩
    rw [List.all_eq_true] at hall
    exact absurd (hall e he) (by simp [hfalse])
  rw [Matrix.make, if_neg hc1, if_neg hc2, if_neg hc3, if_pos hc4]

/-! The skipping loops of get_submatrix are index deletion: mapping reads
over the range filtered at one index equals eraseIdx. -/

theorem map_getD_range' {α : Type} (dflt : α) :
    ∀ (c s : Nat) (l : List α), s + c ≤ l.length →
    (List.range' s c).map (fun i => l.getD i dflt) = (l.drop s).take c := by
  intro c
  induction c with
  | zero => intro s l h; simp
  | succ c ih =>
    intro s l h
    have hs : s < l.length := by omega
    rw [show List.range' s (c + 1) = s :: List.range' (s + 1) c from List.range'_succ s c 1]
    rw [List.map_cons, ih (s + 1) l (by omega), List.drop_eq_getElem_cons hs, List.take_succ_cons]
    congr 1
    rw [List.getD_eq_getElem?_getD, List.getElem?_eq_getElem hs]
    rfl

theorem filter_range_eq (n e : Nat) (h : e < n) :
    (List.range n).filter (fun x => x != e) = List.range e ++ List.range' (e + 1) (n - (e + 1)) := by
  have hsplit : List.range' 0 n = List.range' 0 e ++ List.range' e (n - e) := by
    have happ := List.range'_append 0 e (n - e) 1
    rw [Nat.one_mul, Nat.zero_add, Nat.sub_add_cancel (le_of_lt h)] at happ
    exact happ.symm
  have hcons : List.range' e (n - e) = e :: List.range' (e + 1) (n - (e + 1)) := by
    have : n - e = (n - (e + 1)) + 1 := by omega
    rw [this]
    exact List.range'_succ e (n - (e + 1)) 1
  rw [List.range_eq_range' n, hsplit, hcons, List.filter_append]
  have hleft : (List.range' 0 e).filter (fun x => x != e) = List.range' 0 e := by
    refine List.filter_eq_self.mpr (fun x hx => ?_)
    have := (List.mem_range'_1.mp hx).2
    exact bne_iff_ne.mpr (by omega)
  have hright : (e :: List.range' (e + 1) (n - (e + 1))).filter (fun x => x != e) =
      List.range' (e + 1) (n - (e + 1)) := by
    rw [List.filter_cons_of_neg (by simp)]
    refine List.filter_eq_self.mpr (fun x hx => ?_)
    have := (List.mem_range'_1.mp hx).1
    exact bne_iff_ne.mpr (by omega)
  rw [hleft, hright, List.range_eq_range' e]

theorem filter_range_getD {α : Type} (l : List α) (dflt : α) (e : Nat) (h : e < l.length) :
    ((List.range l.length).filter (fun x => x != e)).map (fun i => l.getD i dflt) =
      l.eraseIdx e := by
  rw [filter_range_eq l.length e h, List.map_append, List.eraseIdx_eq_take_drop_succ]
  congr 1
  · rw [List.range_eq_range' e, map_getD_range' dflt e 0 l (by omega)]
    simp
  · rw [map_getD_range' dflt (l.length - (e + 1)) (e + 1) l (by omega)]
    exact List.take_of_length_le (by rw [List.length_drop])

theorem getD_map_lt {α β : Type} (f : α → β) (l : List α) (i : Nat) (d1 : β) (d2 : α)
    (h : i < l.length) : (l.map f).getD i d1 = f (l.getD i d2) := by
  rw [List.getD_eq_getElem?_getD, List.getElem?_map, List.getD_eq_getElem?_getD,
    List.getElem?_eq_getElem h]
  rfl

theorem Val.listLen_eq (v : Val) : v.listLen = v.elems.length := by
  cases v <;> rfl

theorem toRow_wrap (r : Row) : Val.toRow (Val.vlist (r.map Val.num)) = r := by
  simp only [Val.toRow, Val.elems, List.map_map]
  rw [show ((fun v => Val.toQ v) ∘ fun q : ℚ => Val.num q) = fun q : ℚ => q from rfl]
  exact List.map_id' r

/-- The structural invariant of a constructed Matrix: at least one row,
the recorded row count matches the store, and every stored row has
exactly the recorded number of columns. -/
def MatrixInv (m : Matrix) : Prop :=
  1 ≤ m.rows ∧ m.rows = m.data.length ∧ ∀ row ∈ m.data, row.length = m.cols

theorem make_inv (d : List Val) (m : Matrix) (h : Matrix.make d = .ok m) : MatrixInv m := by
  by_cases hc1 : d.isEmpty = true
  · rw [Matrix.make, if_pos hc1] at h; exact absurd h (by simp)
  by_cases hc2 : (!(d.all Val.isList)) = true
  · rw [Matrix.make, if_neg hc1, if_pos hc2] at h; exact absurd h (by simp)
  by_cases hc3 : (!(d.all (fun r => r.listLen == (d.headD .vnone).listLen))) = true
  · rw [Matrix.make, if_neg hc1, if_neg hc2, if_pos hc3] at h; exact absurd h (by simp)
  by_cases hc4 : (!(d.all (fun r => r.elems.all Val.isNum))) = true
  · rw [Matrix.make, if_neg hc1, if_neg hc2, if_neg hc3, if_pos hc4] at h
    exact absurd h (by simp)
  rw [Matrix.make, if_neg hc1, if_neg hc2, if_neg hc3, if_neg hc4] at h
  have hm : m = ⟨d.map Val.toRow, d.length, (d.headD .vnone).listLen⟩ := by
    cases h; rfl
  subst hm
  have hne : d ≠ [] := by simpa [List.isEmpty_iff] using hc1
  refine ⟨?_, by simp, ?_⟩
  · simpa [Nat.succ_le_iff, List.length_pos] using hne
  · intro row hrow
    rw [List.mem_map] at hrow
    obtain ⟨r, hr, hrw⟩ := hrow
    subst hrw
    have hall : d.all (fun r => r.listLen == (d.headD .vnone).listLen) = true := by
      cases hv : d.all (fun r => r.listLen == (d.headD .vnone).listLen) with
      | true => rfl
      | false => exact absurd (by rw [hv]; rfl) hc3
    have hlen : r.listLen = (d.headD .vnone).listLen :=
      beq_iff_eq.mp (List.all_eq_true.mp hall r hr)
    simp only [Val.toRow, List.length_map]
    rw [← Val.listLen_eq, hlen]

theorem set_element_inv (m : Matrix) (r c : Nat) (v : ℚ) (m2 : Matrix)
    (hInv : MatrixInv m) (h : m.set_element r c v = .ok m2) : MatrixInv m2 := by
  obtain ⟨h1, h2, h3⟩ := hInv
  unfold Matrix.set_element at h
  by_cases hb : r < m.rows ∧ c < m.cols
  · rw [if_pos hb] at h
    have hm : m2 = { m with data := m.data.set r ((m.data.getD r []).set c v) } := by
      cases h; rfl
    subst hm
    refine ⟨h1, by simpa using h2, ?_⟩
    intro row hrow
    rcases List.mem_or_eq_of_mem_set hrow with hmem | heq
    · exact h3 row hmem
    · subst heq
      rw [List.length_set]
      exact h3 _ (getD_mem m.data r [] (by omega))
  · rw [if_neg hb] at h
    exact absurd h (by simp)

theorem eraseIdx_map {α β : Type} (f : α → β) :
    ∀ (l : List α) (e : Nat), (l.map f).eraseIdx e = (l.eraseIdx e).map f := by
  intro l
  induction l with
  | nil => intro e; rfl
  | cons a l ih =>
    intro e
    cases e with
    | zero => rfl
    | succ e =>
      show f a :: (l.map f).eraseIdx e = f a :: (l.eraseIdx e).map f
      rw [ih e]

/-- In-bounds submatrix extraction from a well-formed matrix with at
least two rows succeeds and returns exactly the source data with the
excluded row and column deleted, sized (R-1) by (C-1). -/
theorem get_submatrix_ok (m : Matrix) (er ec : Nat)
    (hWFr : m.rows = m.data.length) (hWFc : ∀ row ∈ m.data, row.length = m.cols)
    (her : er < m.rows) (hec : ec < m.cols) (h2 : 2 ≤ m.rows) :
    m.get_submatrix er ec =
      .ok ⟨(m.data.eraseIdx er).map (fun row => row.eraseIdx ec), m.rows - 1, m.cols - 1⟩ := by
  simp only [Matrix.get_submatrix]
  rw [if_pos ⟨her, hec⟩]
  have hsub : ((List.range m.rows).filter (fun i => i != er)).map
      (fun i => ((List.range m.cols).filter (fun j => j != ec)).map
        (fun j => (m.data.getD i []).getD j 0)) =
      (m.data.eraseIdx er).map (fun row => row.eraseIdx ec) := by
    have hmem : ∀ i ∈ (List.range m.rows).filter (fun i => i != er), i < m.data.length := by
      intro i hi
      have := List.mem_range.mp (List.mem_of_mem_filter hi)
      omega
    rw [List.map_congr_left (fun i hi => ?_)]
    · show ((List.range m.rows).filter (fun i => i != er)).map
        (fun i => (m.data.map (fun row => row.eraseIdx ec)).getD i []) =
        (m.data.eraseIdx er).map (fun row => row.eraseIdx ec)
      have hlen : m.rows = (m.data.map (fun row => row.eraseIdx ec)).length := by
        rw [List.length_map]; exact hWFr
      rw [hlen, filter_range_getD (m.data.map (fun row => row.eraseIdx ec)) [] er
        (by rw [← hlen]; exact her)]
      exact eraseIdx_map (fun row => row.eraseIdx ec) m.data er
    · have hilt : i < m.data.length := hmem i hi
      have hrowlen : (m.data.getD i []).length = m.cols :=
        hWFc _ (getD_mem m.data i [] hilt)
      rw [show (List.range m.cols) = List.range (m.data.getD i []).length from by rw [hrowlen]]
      rw [filter_range_getD (m.data.getD i []) 0 ec (by rw [hrowlen]; exact hec)]
      exact (getD_map_lt (fun row => row.eraseIdx ec) m.data i [] [] hilt).symm
  rw [hsub]
  have hlenE : (m.data.eraseIdx er).length = m.rows - 1 := by
    rw [List.length_eraseIdx m.data er, if_pos (by omega)]
    omega
  have hrowsE : ∀ r ∈ (m.data.eraseIdx er).map (fun row => row.eraseIdx ec),
      r.length = m.cols - 1 := by
    intro r hr
    rw [List.mem_map] at hr
    obtain ⟨row, hrow, hrw⟩ := hr
    subst hrw
    have : row.length = m.cols := hWFc row (List.mem_of_mem_eraseIdx hrow)
    rw [List.length_eraseIdx row ec, this, if_pos hec]
  obtain ⟨s0, stl, hcons⟩ : ∃ s0 stl, (m.data.eraseIdx er).map (fun row => row.eraseIdx ec) =
      s0 :: stl := by
    cases hcase : (m.data.eraseIdx er).map (fun row => row.eraseIdx ec) with
    | nil =>
      have := congrArg List.length hcase
      rw [List.length_map, hlenE, List.length_nil] at this
      omega
    | cons a l => exact ⟨a, l, rfl⟩
  rw [hcons]
  rw [make_ok _ (by simp) (by
      intro r hr
      rw [List.mem_map] at hr
      obtain ⟨x, _, hx⟩ := hr
      subst hx
      rfl)
    (by
      intro r hr
      rw [List.mem_map] at hr
      obtain ⟨x, hxm, hx⟩ := hr
      subst hx
      show (Val.vlist (x.map Val.num)).listLen =
        (((s0 :: stl).map (fun r => Val.vlist (r.map Val.num))).headD .vnone).listLen
      rw [List.map_cons]
      show (x.map Val.num).length = (s0.map Val.num).length
      rw [List.length_map, List.length_map]
      rw [hrowsE x (hcons ▸ hxm), hrowsE s0 (hcons ▸ List.mem_cons_self s0 stl)])
    (by
      intro r hr e he
      rw [List.mem_map] at hr
      obtain ⟨x, _, hx⟩ := hr
      subst hx
      simp only [Val.elems] at he
      rw [List.mem_map] at he
      obtain ⟨q, _, hq⟩ := he
      subst hq
      rfl)]
  have hlc : (s0 :: stl).length = m.rows - 1 := by
    rw [← hcons, List.length_map, hlenE]
  simp only [Except.ok.injEq]
  rw [Matrix.mk.injEq]
  refine ⟨?_, ?_, ?_⟩
  · rw [List.map_map]
    have hid : List.map (Val.toRow ∘ fun r => Val.vlist (List.map Val.num r)) (s0 :: stl) =
        List.map (fun a => a) (s0 :: stl) :=
      List.map_congr_left (fun a _ => toRow_wrap a)
    rw [hid]
    exact List.map_id' _
  · rw [List.length_map, hlc]
  · rw [List.map_cons]
    show (s0.map Val.num).length = m.cols - 1
    rw [List.length_map]
    exact hrowsE s0 (hcons ▸ List.mem_cons_self s0 stl)

/-- In-bounds submatrix extraction from a single-row matrix yields the
empty list, which the constructor rejects as an invalid shape. -/
theorem get_submatrix_err_small (m : Matrix) (er ec : Nat)
    (her : er < m.rows) (hec : ec < m.cols) (h1 : m.rows ≤ 1) :
    m.get_submatrix er ec = .error .invalidShape := by
  have hr1 : m.rows = 1 := by omega
  have her0 : er = 0 := by omega
  simp only [Matrix.get_submatrix]
  rw [if_pos ⟨her, hec⟩, hr1, her0]
  rw [show (List.range 1).filter (fun i => i != 0) = [] from by decide]
  rfl

/-- The pre-flight validator answers true exactly when the Matrix
constructor would accept the data and the resulting matrix would be
square: the first four checks are the constructor's own checks in the
same order, and the fifth is the calculator's square check. -/
theorem validate_iff (d : List Val) :
    (validate_matrix_data d).1 = true ↔
      ∃ m, Matrix.make d = .ok m ∧ m.rows = m.cols := by
  by_cases hc1 : d.isEmpty = true
  · rw [validate_matrix_data, if_pos hc1, Matrix.make, if_pos hc1]
    simp
  by_cases hc2 : (!(d.all Val.isList)) = true
  · rw [validate_matrix_data, if_neg hc1, if_pos hc2, Matrix.make, if_neg hc1, if_pos hc2]
    simp
  by_cases hc3 : (!(d.all (fun r => r.listLen == (d.headD .vnone).listLen))) = true
  · rw [validate_matrix_data, if_neg hc1, if_neg hc2, if_pos hc3,
      Matrix.make, if_neg hc1, if_neg hc2, if_pos hc3]
    simp
  by_cases hc4 : (!(d.all (fun r => r.elems.all Val.isNum))) = true
  · rw [validate_matrix_data, if_neg hc1, if_neg hc2, if_neg hc3, if_pos hc4,
      Matrix.make, if_neg hc1, if_neg hc2, if_neg hc3, if_pos hc4]
    simp
  rw [validate_matrix_data, if_neg hc1, if_neg hc2, if_neg hc3, if_neg hc4,
    Matrix.make, if_neg hc1, if_neg hc2, if_neg hc3, if_neg hc4]
  by_cases hsq : d.length ≠ (d.headD .vnone).listLen
  · rw [if_pos hsq]
    constructor
    · intro h; exact absurd h (by simp)
    · rintro ⟨mm, hmm, hrc⟩
      have : mm = ⟨d.map Val.toRow, d.length, (d.headD .vnone).listLen⟩ := by
        cases hmm; rfl
      subst this
      exact absurd hrc hsq
  · rw [if_neg hsq]
    simp only [ne_eq, not_not] at hsq
    exact ⟨fun _ => ⟨_, rfl, hsq⟩, fun _ => rfl⟩

/-! Frame lemmas for the heap model: to_list allocates only fresh row
ids at or above the old heap size, elimination writes only through the
working reference list, and therefore every pre-existing row object is
untouched by a whole calculation. -/

theorem tl_go :
    ∀ (ids : List Nat) (h : Heap) (pre : List Nat),
    (∃ ext, (ids.foldl tlStep (h, pre)).1 = h ++ ext) ∧
    (∀ x ∈ (ids.foldl tlStep (h, pre)).2, x ∈ pre ∨ h.length ≤ x) ∧
    (ids.foldl tlStep (h, pre)).2.length = pre.length + ids.length := by
  intro ids
  induction ids with
  | nil =>
    intro h pre
    exact ⟨⟨[], by simp⟩, fun x hx => Or.inl hx, by simp⟩
  | cons rid ids ih =>
    intro h pre
    rw [List.foldl_cons, show tlStep (h, pre) rid = (h ++ [hRead h rid], pre ++ [h.length]) from rfl]
    obtain ⟨⟨ext, hext⟩, hmem, hlen⟩ := ih (h ++ [hRead h rid]) (pre ++ [h.length])
    refine ⟨⟨[hRead h rid] ++ ext, by rw [hext, List.append_assoc]⟩, ?_, ?_⟩
    · intro x hx
      rcases hmem x hx with hpre | hge
      · rcases List.mem_append.mp hpre with hp | hh
        · exact Or.inl hp
        · right
          have hx0 : x = h.length := by simpa using hh
          omega
      · right
        rw [List.length_append] at hge
        simp only [List.length_cons, List.length_nil] at hge
        omega
    · rw [hlen, List.length_append]
      simp only [List.length_cons, List.length_nil]
      omega

theorem subRowH_read_ne (ids : List Nat) (k i : Nat) (f : ℚ) (r : Nat)
    (hne : r ≠ ids.getD k 0) :
    ∀ (js : List Nat) (h : Heap), hRead (subRowH ids k i f h js) r = hRead h r := by
  intro js
  induction js with
  | nil => intro h; rfl
  | cons j js ih =>
    intro h
    rw [subRowH, ih]
    simp only [hRead, setEH, hWrite]
    exact getD_set_ne _ _ _ _ _ (fun hh => hne hh.symm)

theorem elimKH_frame (ids : List Nat) (i : Nat) (js : List Nat) (N : Nat)
    (hids : ∀ x ∈ ids, N ≤ x) :
    ∀ (ks : List Nat) (h h2 : Heap), elimKH ids i js h ks = .ok h2 →
    (∀ k ∈ ks, k < ids.length) → ∀ r, r < N → hRead h2 r = hRead h r := by
  intro ks
  induction ks with
  | nil =>
    intro h h2 hok _ r hr
    cases hok
    rfl
  | cons k ks ih =>
    intro h h2 hok hk r hr
    rw [elimKH] at hok
    by_cases hbig : |getEH h ids k i| > tol
    · rw [if_pos hbig] at hok
      cases hdiv : pydiv (getEH h ids k i) (getEH h ids i i) with
      | error e =>
        rw [hdiv, ebind_error] at hok
        exact absurd hok (by simp)
      | ok factor =>
        rw [hdiv, ebind_ok] at hok
        have hsub : hRead (subRowH ids k i factor h js) r = hRead h r := by
          refine subRowH_read_ne ids k i factor r ?_ js h
          have hkl : k < ids.length := hk k (List.mem_cons_self k ks)
          have hge := hids _ (getD_mem ids k 0 hkl)
          omega
        rw [ih _ h2 hok (fun x hx => hk x (List.mem_cons_of_mem k hx)) r hr, hsub]
    · rw [if_neg hbig] at hok
      exact ih h h2 hok (fun x hx => hk x (List.mem_cons_of_mem k hx)) r hr

theorem swapIds_mem (ids : List Nat) (i mr : Nat) (hi : i < ids.length)
    (hmr : mr < ids.length) : ∀ x ∈ swapIds ids i mr, x ∈ ids := by
  intro x hx
  unfold swapIds at hx
  rcases List.mem_or_eq_of_mem_set hx with hx1 | hx1
  · rcases List.mem_or_eq_of_mem_set hx1 with hx2 | hx2
    · exact hx2
    · subst hx2; exact getD_mem ids mr 0 hmr
  · subst hx1; exact getD_mem ids i 0 hi

theorem swapIds_length (ids : List Nat) (i mr : Nat) :
    (swapIds ids i mr).length = ids.length := by
  simp [swapIds]

theorem maxRowLoop_bound (f : Nat → ℚ) :
    ∀ (ks : List Nat) (cur : Nat), maxRowLoop f cur ks = cur ∨ maxRowLoop f cur ks ∈ ks := by
  intro ks
  induction ks with
  | nil => intro cur; exact Or.inl rfl
  | cons k ks ih =>
    intro cur
    rw [maxRowLoop]
    rcases ih (if f k > f cur then k else cur) with h | h
    · rw [h]
      by_cases hc : f k > f cur
      · rw [if_pos hc]; exact Or.inr (List.mem_cons_self k ks)
      · rw [if_neg hc]; exact Or.inl rfl
    · exact Or.inr (List.mem_cons_of_mem k h)

theorem findMaxRowH_lt (h : Heap) (ids : List Nat) (i n : Nat) (hin : i < n) :
    findMaxRowH h ids i n < n := by
  rcases maxRowLoop_bound (fun k => |getEH h ids k i|) (List.range' (i + 1) (n - (i + 1))) i
    with hb | hb
  · rw [findMaxRowH, hb]; exact hin
  · have := List.mem_range'_1.mp hb
    rw [findMaxRowH]
    omega

theorem elimLoopH_frame (n N : Nat) :
    ∀ (is : List Nat) (h : Heap) (ids : List Nat) (swaps : Nat)
      (out : Heap × Option (List Nat × Nat)),
    elimLoopH n h ids swaps is = .ok out →
    (∀ x ∈ ids, N ≤ x) → ids.length = n → (∀ i ∈ is, i < n) →
    ∀ r, r < N → hRead out.1 r = hRead h r := by
  intro is
  induction is with
  | nil =>
    intro h ids swaps out hok _ _ _ r hr
    cases hok
    rfl
  | cons i is ih =>
    intro h ids swaps out hok hids hlen his r hr
    simp only [elimLoopH] at hok
    have hin : i < n := his i (List.mem_cons_self i is)
    have hmrn : findMaxRowH h ids i n < n := findMaxRowH_lt h ids i n hin
    have hids1 : ∀ x ∈ (if findMaxRowH h ids i n ≠ i then swapIds ids i (findMaxRowH h ids i n)
        else ids), N ≤ x := by
      by_cases hsw : findMaxRowH h ids i n ≠ i
      · rw [if_pos hsw]
        intro x hx
        exact hids x (swapIds_mem ids i (findMaxRowH h ids i n) (by omega) (by omega) x hx)
      · rw [if_neg hsw]
        exact hids
    have hlen1 : (if findMaxRowH h ids i n ≠ i then swapIds ids i (findMaxRowH h ids i n)
        else ids).length = n := by
      by_cases hsw : findMaxRowH h ids i n ≠ i
      · rw [if_pos hsw, swapIds_length]; exact hlen
      · rw [if_neg hsw]; exact hlen
    by_cases hpiv : |getEH h (if findMaxRowH h ids i n ≠ i then
        swapIds ids i (findMaxRowH h ids i n) else ids) i i| < tol
    · rw [if_pos hpiv] at hok
      cases hok
      rfl
    · rw [if_neg hpiv] at hok
      cases hkh : elimKH (if findMaxRowH h ids i n ≠ i then swapIds ids i (findMaxRowH h ids i n)
          else ids) i (List.range' i (n - i)) h (List.range' (i + 1) (n - (i + 1))) with
      | error e =>
        rw [hkh, ebind_error] at hok
        exact absurd hok (by simp)
      | ok h2 =>
        rw [hkh, ebind_ok] at hok
        have hstep := elimKH_frame _ i (List.range' i (n - i)) N hids1
          (List.range' (i + 1) (n - (i + 1))) h h2 hkh
          (fun k hk => by
            have := List.mem_range'_1.mp hk
            rw [hlen1]
            omega) r hr
        have hrest := ih h2 _ _ out hok hids1 hlen1
          (fun x hx => his x (List.mem_cons_of_mem i hx)) r hr
        rw [hrest, hstep]

theorem hRead_append_low (h ext : Heap) (r : Nat) (hr : r < h.length) :
    hRead (h ++ ext) r = hRead h r := by
  simp only [hRead]
  exact getD_append_left h ext r [] hr

theorem calculateH_frame (h : Heap) (mx : PyMatrix) (hrows : mx.prows = mx.rowIds.length)
    (q : ℚ) (h2 : Heap) (hok : calculateH h mx = .ok (q, h2)) :
    ∀ r, r < h.length → hRead h2 r = hRead h r := by
  intro r hr
  simp only [calculateH] at hok
  by_cases hsq : (mx.prows == mx.pcols) = false
  · rw [if_pos hsq] at hok
    exact absurd hok (by simp)
  rw [if_neg hsq] at hok
  obtain ⟨⟨ext, hext⟩, hmem, hlen⟩ := tl_go mx.rowIds h []
  cases hout : elimLoopH mx.prows (to_listH h mx.rowIds).1 (to_listH h mx.rowIds).2 0
      (List.range mx.prows) with
  | error e =>
    rw [hout, ebind_error] at hok
    exact absurd hok (by simp)
  | ok o =>
    rw [hout, ebind_ok] at hok
    have hframe := elimLoopH_frame mx.prows h.length (List.range mx.prows)
      (to_listH h mx.rowIds).1 (to_listH h mx.rowIds).2 0 o hout
      (fun x hx => by
        rcases hmem x hx with hfalse | hge
        · cases hfalse
        · have hlow : hRead (to_listH h mx.rowIds).1 x = hRead (to_listH h mx.rowIds).1 x := rfl
          exact hge)
      (by
        show (mx.rowIds.foldl tlStep (h, [])).2.length = mx.prows
        rw [hlen]
        simp [hrows])
      (fun x hx => List.mem_range.mp hx) r hr
    have hlow : hRead (to_listH h mx.rowIds).1 r = hRead h r := by
      rw [show (to_listH h mx.rowIds).1 = (mx.rowIds.foldl tlStep (h, [])).1 from rfl, hext]
      exact hRead_append_low h ext r hr
    obtain ⟨h2x, o2⟩ := o
    cases o2 with
    | none =>
      have hh : h2 = h2x := by cases hok; rfl
      subst hh
      exact hframe.trans hlow
    | some idsw =>
      obtain ⟨ids2, swaps⟩ := idsw
      have hh : h2 = h2x := by cases hok; rfl
      subst hh
      exact hframe.trans hlow

theorem calculate_with_stepsH_frame (h : Heap) (mx : PyMatrix)
    (hrows : mx.prows = mx.rowIds.length) (q : ℚ) (h2 : Heap)
    (hok : calculate_with_stepsH h mx = .ok (q, h2)) :
    ∀ r, r < h.length → hRead h2 r = hRead h r := by
  intro r hr
  simp only [calculate_with_stepsH] at hok
  by_cases hsq : (mx.prows == mx.pcols) = false
  · rw [if_pos hsq] at hok
    exact absurd hok (by simp)
  rw [if_neg hsq] at hok
  obtain ⟨⟨ext, hext⟩, hmem, hlen⟩ := tl_go mx.rowIds h []
  obtain ⟨⟨ext2, hext2⟩, hmem2, hlen2⟩ :=
    tl_go (to_listH h mx.rowIds).2 (to_listH h mx.rowIds).1 []
  cases hout : elimLoopH mx.prows (to_listH (to_listH h mx.rowIds).1 (to_listH h mx.rowIds).2).1
      (to_listH (to_listH h mx.rowIds).1 (to_listH h mx.rowIds).2).2 0
      (List.range mx.prows) with
  | error e =>
    rw [hout, ebind_error] at hok
    exact absurd hok (by simp)
  | ok o =>
    rw [hout, ebind_ok] at hok
    have hlow1 : (h.length : Nat) ≤ (to_listH h mx.rowIds).1.length := by
      rw [show (to_listH h mx.rowIds).1 = (mx.rowIds.foldl tlStep (h, [])).1 from rfl, hext]
      rw [List.length_append]
      omega
    have hframe := elimLoopH_frame mx.prows h.length (List.range mx.prows)
      (to_listH (to_listH h mx.rowIds).1 (to_listH h mx.rowIds).2).1
      (to_listH (to_listH h mx.rowIds).1 (to_listH h mx.rowIds).2).2 0 o hout
      (fun x hx => by
        rcases hmem2 x hx with hfalse | hge
        · cases hfalse
        · omega)
      (by
        show ((to_listH h mx.rowIds).2.foldl tlStep ((to_listH h mx.rowIds).1, [])).2.length =
          mx.prows
        rw [hlen2]
        have hl1 : (to_listH h mx.rowIds).2.length = mx.rowIds.length := by
          show (mx.rowIds.foldl tlStep (h, [])).2.length = mx.rowIds.length
          rw [hlen]
          simp
        rw [hl1]
        simp [hrows])
      (fun x hx => List.mem_range.mp hx) r hr
    have hlow : hRead (to_listH (to_listH h mx.rowIds).1 (to_listH h mx.rowIds).2).1 r =
        hRead h r := by
      rw [show (to_listH (to_listH h mx.rowIds).1 (to_listH h mx.rowIds).2).1 =
        ((to_listH h mx.rowIds).2.foldl tlStep ((to_listH h mx.rowIds).1, [])).1 from rfl, hext2]
      rw [hRead_append_low _ ext2 r (by omega)]
      rw [show (to_listH h mx.rowIds).1 = (mx.rowIds.foldl tlStep (h, [])).1 from rfl, hext]
      exact hRead_append_low h ext r hr
    obtain ⟨h2x, o2⟩ := o
    cases o2 with
    | none =>
      have hh : h2 = h2x := by cases hok; rfl
      subst hh
      exact hframe.trans hlow
    | some idsw =>
      obtain ⟨ids2, swaps⟩ := idsw
      have hh : h2 = h2x := by cases hok; rfl
      subst hh
      exact hframe.trans hlow

/-! Helpers relating the two calculator entry points to the square check. -/

theorem calculate_not_square (mx : Matrix) (hsq : mx.is_square = false) :
    calculate mx = .error .notSquare := by
  simp only [calculate]
  rw [if_pos hsq]

theorem steps_not_square (mx : Matrix) (hsq : mx.is_square = false) :
    calculate_with_steps mx = .error .notSquare := by
  simp only [calculate_with_steps]
  rw [if_pos hsq]

theorem calculate_ok_of_square (mx : Matrix) (hsq : mx.is_square = true) :
    ∃ q, calculate mx = .ok q := by
  simp only [calculate]
  rw [if_neg (by simp [hsq])]
  obtain ⟨r, hr⟩ := elimLoop_ok mx.rows (List.range mx.rows) mx.to_list 0
  rw [hr, ebind_ok]
  cases r with
  | none => exact ⟨0, rfl⟩
  | some p =>
    obtain ⟨mf, sw⟩ := p
    exact ⟨_, rfl⟩

theorem steps_ok_of_square (mx : Matrix) (hsq : mx.is_square = true) :
    ∃ q st, calculate_with_steps mx = .ok (q, st) := by
  obtain ⟨q, hq⟩ := calculate_ok_of_square mx hsq
  have heq := calc_eq_steps_fst mx
  rw [hq] at heq
  cases hws : calculate_with_steps mx with
  | error e =>
    rw [hws, emap_error] at heq
    exact absurd heq (by simp)
  | ok p =>
    exact ⟨p.1, p.2, rfl⟩

/-! The claims. -/

/-- C1: for every Matrix the two code paths agree numerically — the plain
calculate is exactly the first projection of calculate_with_steps, on
every input on which either is defined (they also fail identically). -/
theorem claim_C1 (mx : Matrix) :
    calculate mx = Except.map Prod.fst (calculate_with_steps mx) :=
  calc_eq_steps_fst mx

/-- C2: when the pivot remaining after the partial-pivot swap at column i
is below the 1e-10 threshold, the plain loop returns the singular marker
immediately, ignoring all remaining columns; the step loop returns the
trace built so far (step header, optional swap notice and snapshot)
terminated by the zero-pivot line and the determinant-is-zero line; and
at the top level calculate returns 0 while calculate_with_steps returns
(0, trace) with the trace ending in those two terminal lines. -/
theorem claim_C2 (m : Mat) (sw : Nat) (acc : List Step) (i n : Nat) (is : List Nat)
    (mx : Matrix)
    (hpiv : |getE (if findMaxRow m i n ≠ i then swapRows m i (findMaxRow m i n) else m) i i| < tol)
    (hsq : mx.is_square = true)
    (hloop : elimLoop mx.rows mx.to_list 0 (List.range mx.rows) = .ok none) :
    elimLoop n m sw (i :: is) = .ok none ∧
    elimLoopS n m sw acc (i :: is) = .ok (none, acc ++ [Step.stepHeader i] ++
      (if findMaxRow m i n ≠ i then
        [Step.swapNotice i (findMaxRow m i n) (sw + 1)] ++ snap (swapRows m i (findMaxRow m i n))
      else []) ++ [Step.pivotZero, Step.detZero]) ∧
    calculate mx = .ok 0 ∧
    (∃ tr p2, calculate_with_steps mx = .ok (0, tr) ∧
      tr = p2 ++ [Step.pivotZero, Step.detZero]) := by
  refine ⟨?_, ?_, ?_, calc_with_steps_none mx hsq hloop⟩
  · simp only [elimLoop]
    rw [if_pos hpiv]
  · simp only [elimLoopS]
    rw [if_pos hpiv]
    by_cases hsw : findMaxRow m i n ≠ i
    · rw [if_pos hsw, if_pos hsw]
      simp [List.append_assoc]
    · rw [if_neg hsw, if_neg hsw]
      simp [List.append_assoc]
  · simp only [calculate]
    rw [if_neg (by simp [hsq]), hloop, ebind_ok]

/-- C2 witness: the zero 2 by 2 matrix triggers the singular
short-circuit at the first column with no swap. -/
theorem claim_C2_witness :
    elimLoop 2 [[0,0],[0,0]] 0 (0 :: [1]) = .ok none ∧
    elimLoopS 2 [[0,0],[0,0]] 0 [] (0 :: [1]) = .ok (none, [] ++ [Step.stepHeader 0] ++
      (if findMaxRow [[0,0],[0,0]] 0 2 ≠ 0 then
        [Step.swapNotice 0 (findMaxRow [[0,0],[0,0]] 0 2) (0 + 1)] ++
          snap (swapRows [[0,0],[0,0]] 0 (findMaxRow [[0,0],[0,0]] 0 2))
      else []) ++ [Step.pivotZero, Step.detZero]) ∧
    calculate ⟨[[0,0],[0,0]],2,2⟩ = .ok 0 ∧
    (∃ tr p2, calculate_with_steps ⟨[[0,0],[0,0]],2,2⟩ = .ok (0, tr) ∧
      tr = p2 ++ [Step.pivotZero, Step.detZero]) :=
  claim_C2 [[0,0],[0,0]] 0 [] 0 2 [1] ⟨[[0,0],[0,0]],2,2⟩
    (by norm_num [findMaxRow, maxRowLoop, getE, tol, List.range'])
    rfl
    (by norm_num [elimLoop, findMaxRow, maxRowLoop, getE, tol, List.range_succ,
      List.range_zero, List.range', Matrix.to_list, ebind_ok, ebind_error,
      List.getElem?_cons_zero, List.getElem?_cons_succ])

/-- C3: the selected pivot row is the first row from i upward whose
column-i entry has the largest absolute value (every candidate is no
larger, and every earlier candidate is strictly smaller); the loop swaps
rows i and maxRow and increments the swap counter exactly when maxRow
differs from i; and on completion the result of calculate is the product
of the diagonal of the final triangular matrix, negated exactly when the
swap count is odd. -/
theorem claim_C3 (m : Mat) (i n sw : Nat) (is : List Nat) (mx : Matrix) (mf : Mat) (s : Nat)
    (hin : i < n) (hsq : mx.is_square = true)
    (hloop : elimLoop mx.rows mx.to_list 0 (List.range mx.rows) = .ok (some (mf, s))) :
    (i ≤ findMaxRow m i n ∧ findMaxRow m i n < n) ∧
    (∀ k, i ≤ k → k < n → |getE m k i| ≤ |getE m (findMaxRow m i n) i|) ∧
    (∀ k, i ≤ k → k < findMaxRow m i n → |getE m k i| < |getE m (findMaxRow m i n) i|) ∧
    (findMaxRow m i n = i →
      elimLoop n m sw (i :: is) =
        (if |getE m i i| < tol then .ok none
         else (elimK i (List.range' i (n - i)) m (List.range' (i + 1) (n - (i + 1)))).bind
           (fun m2 => elimLoop n m2 sw is))) ∧
    (findMaxRow m i n ≠ i →
      elimLoop n m sw (i :: is) =
        (if |getE (swapRows m i (findMaxRow m i n)) i i| < tol then .ok none
         else (elimK i (List.range' i (n - i)) (swapRows m i (findMaxRow m i n))
             (List.range' (i + 1) (n - (i + 1)))).bind
           (fun m2 => elimLoop n m2 (sw + 1) is))) ∧
    calculate mx = .ok (if Odd s then -(diagProd mf mx.rows) else diagProd mf mx.rows) := by
  obtain ⟨hA1, hA2, hB, hC⟩ := findMaxRow_spec m i n hin
  refine ⟨⟨hA1, hA2⟩, hB, hC, ?_, ?_, ?_⟩
  · intro hsw
    simp [elimLoop, hsw]
  · intro hsw
    simp only [elimLoop]
    rw [if_pos hsw, if_pos hsw]
  · simp only [calculate]
    rw [if_neg (by simp [hsq]), hloop, ebind_ok]
    have hd : (List.range mx.rows).foldl (fun d i => d * getE mf i i) 1 = diagProd mf mx.rows := by
      rw [diagProd, List.prod_eq_foldl, List.foldl_map]
    show Except.ok (if s % 2 = 1 then -((List.range mx.rows).foldl (fun d i => d * getE mf i i) 1)
        else (List.range mx.rows).foldl (fun d i => d * getE mf i i) 1) =
      Except.ok (if Odd s then -(diagProd mf mx.rows) else diagProd mf mx.rows)
    rw [hd]
    by_cases hodd : s % 2 = 1
    · rw [if_pos hodd, if_pos (Nat.odd_iff.mpr hodd)]
    · rw [if_neg hodd, if_neg (fun ho => hodd (Nat.odd_iff.mp ho))]

/-- C3 witness: on a matrix whose elimination swaps once and then reads a
triangular matrix, calculate returns the negated diagonal product. -/
theorem claim_C3_witness :
    calculate ⟨[[0,1],[2,3]],2,2⟩ =
      .ok (if Odd 1 then -(diagProd [[2,3],[0,1]] 2) else diagProd [[2,3],[0,1]] 2) :=
  (claim_C3 [[1,2],[3,4]] 0 2 0 [] ⟨[[0,1],[2,3]],2,2⟩ [[2,3],[0,1]] 1
    (by norm_num) rfl
    (by norm_num [elimLoop, findMaxRow, maxRowLoop, getE, tol, List.range_succ,
      List.range_zero, List.range', Matrix.to_list, swapRows, elimK, List.getD, ebind_ok,
      ebind_error, List.getElem?_cons_zero, List.getElem?_cons_succ])).2.2.2.2.2

/-- C4: each calculator entry point raises the not-square error exactly
when the input matrix is not square, and a not-square error is the only
error either can produce; failure yields no partial output since the
result is the error alone. -/
theorem claim_C4 (mx : Matrix) :
    (calculate mx = .error .notSquare ↔ mx.is_square = false) ∧
    (calculate_with_steps mx = .error .notSquare ↔ mx.is_square = false) ∧
    (∀ e, calculate mx = .error e → e = .notSquare) ∧
    (∀ e, calculate_with_steps mx = .error e → e = .notSquare) := by
  refine ⟨⟨?_, calculate_not_square mx⟩, ⟨?_, steps_not_square mx⟩, ?_, ?_⟩
  · intro h
    cases hsqv : mx.is_square with
    | false => rfl
    | true =>
      obtain ⟨q, hq⟩ := calculate_ok_of_square mx hsqv
      rw [h] at hq
      exact absurd hq (by simp)
  · intro h
    cases hsqv : mx.is_square with
    | false => rfl
    | true =>
      obtain ⟨q, st, hq⟩ := steps_ok_of_square mx hsqv
      rw [h] at hq
      exact absurd hq (by simp)
  · intro e he
    cases hsqv : mx.is_square with
    | false =>
      have := calculate_not_square mx hsqv
      rw [he] at this
      cases this
      rfl
    | true =>
      obtain ⟨q, hq⟩ := calculate_ok_of_square mx hsqv
      rw [he] at hq
      exact absurd hq (by simp)
  · intro e he
    cases hsqv : mx.is_square with
    | false =>
      have := steps_not_square mx hsqv
      rw [he] at this
      cases this
      rfl
    | true =>
      obtain ⟨q, st, hq⟩ := steps_ok_of_square mx hsqv
      rw [he] at hq
      exact absurd hq (by simp)

/-- C4 witness: a 1 by 2 matrix makes calculate raise the not-square
error. -/
theorem claim_C4_witness : calculate ⟨[[1,2]],1,2⟩ = .error .notSquare :=
  (claim_C4 ⟨[[1,2]],1,2⟩).1.mpr rfl

/-- C5: construction fails with the shape error when the data is empty,
a row is not a list, or row lengths disagree with the first row; when
the shape is fine it fails with the element error when some element is
not a number; and otherwise it succeeds with a value copy of the data,
R = len(data) and C = len(data[0]). -/
theorem claim_C5 (d : List Val) :
    ((d = [] ∨ (∃ r ∈ d, r.isList = false) ∨
        (∃ r ∈ d, r.listLen ≠ (d.headD .vnone).listLen)) →
      Matrix.make d = .error .invalidShape) ∧
    ((d ≠ [] ∧ (∀ r ∈ d, r.isList = true) ∧
        (∀ r ∈ d, r.listLen = (d.headD .vnone).listLen)) →
      (∃ r ∈ d, ∃ e ∈ r.elems, e.isNum = false) → Matrix.make d = .error .invalidElement) ∧
    ((d ≠ [] ∧ (∀ r ∈ d, r.isList = true) ∧
        (∀ r ∈ d, r.listLen = (d.headD .vnone).listLen) ∧
        (∀ r ∈ d, ∀ e ∈ r.elems, e.isNum = true)) →
      Matrix.make d = .ok ⟨d.map Val.toRow, d.length, (d.headD .vnone).listLen⟩) :=
  ⟨make_err_shape d,
   fun h12 h4 => make_err_elem d h12.1 h12.2.1 h12.2.2 h4,
   fun h => make_ok d h.1 h.2.1 h.2.2.1 h.2.2.2⟩

/-- C5 witness: the empty data raises the shape error. -/
theorem claim_C5_witness : Matrix.make [] = .error .invalidShape :=
  (claim_C5 []).1 (Or.inl rfl)

/-- C6 counterexample: a 2 by 1 matrix has C = 1, yet the in-bounds
submatrix request succeeds (the constructor accepts the resulting list
of empty rows) instead of failing with the shape error. -/
theorem claim_C6_counterexample :
    Matrix.get_submatrix ⟨[[1],[2]], 2, 1⟩ 0 0 = .ok ⟨[[]], 1, 0⟩ ∧
    (⟨[[1],[2]], 2, 1⟩ : Matrix).cols ≤ 1 := by
  exact ⟨rfl, by norm_num⟩

/-- C6 amended: get_submatrix fails with the index error when either
exclude index is out of bounds; for in-bounds indices it fails with the
shape error when R is 1 (the result would be the empty list); and for
R at least 2 it succeeds — even when C = 1 — returning the new
(R-1) by (C-1) Matrix formed by deleting the given row and column. -/
theorem claim_C6 (m : Matrix) (er ec : Nat)
    (hWFr : m.rows = m.data.length) (hWFc : ∀ row ∈ m.data, row.length = m.cols) :
    (¬(er < m.rows ∧ ec < m.cols) → m.get_submatrix er ec = .error .indexOutOfRange) ∧
    (er < m.rows → ec < m.cols → m.rows ≤ 1 →
      m.get_submatrix er ec = .error .invalidShape) ∧
    (er < m.rows → ec < m.cols → 2 ≤ m.rows →
      m.get_submatrix er ec =
        .ok ⟨(m.data.eraseIdx er).map (fun row => row.eraseIdx ec),
          m.rows - 1, m.cols - 1⟩) := by
  refine ⟨?_, ?_, ?_⟩
  · intro hb
    simp only [Matrix.get_submatrix]
    rw [if_neg hb]
  · intro her hec hr1
    exact get_submatrix_err_small m er ec her hec hr1
  · intro her hec hr2
    exact get_submatrix_ok m er ec hWFr hWFc her hec hr2

/-- C6 witness: deleting row 0 and column 0 of the 2 by 2 matrix with
rows (1,2) and (3,4) yields the 1 by 1 matrix containing 4. -/
theorem claim_C6_witness :
    Matrix.get_submatrix ⟨[[1,2],[3,4]],2,2⟩ 0 0 = .ok ⟨[[4]],1,1⟩ := by
  have happ := (claim_C6 ⟨[[1,2],[3,4]],2,2⟩ 0 0 rfl (by simp)).2.2
    (by norm_num) (by norm_num) (by norm_num)
  simpa using happ

/-- C7 counterexample: the constructor accepts a nonempty list of empty
rows, producing a Matrix with C = 0, so the invariant C at least 1 does
not hold for every successfully constructed Matrix. -/
theorem claim_C7_counterexample :
    Matrix.make [Val.vlist []] = .ok ⟨[[]], 1, 0⟩ ∧
    ¬(1 ≤ (Matrix.mk [[]] 1 0).cols) := by
  exact ⟨rfl, by norm_num⟩

/-- C7 amended: every successfully constructed Matrix satisfies R at
least 1, the recorded row count equals the store length, and every
stored row has exactly C elements; this invariant is preserved by
set_element and holds for every Matrix produced by get_submatrix.
(C at least 1, however, can fail: a nonempty list of empty rows is
accepted and yields C = 0.) -/
theorem claim_C7 :
    (∀ d m, Matrix.make d = .ok m → MatrixInv m) ∧
    (∀ (m : Matrix) r c v m2, MatrixInv m → Matrix.set_element m r c v = .ok m2 →
      MatrixInv m2) ∧
    (∀ (m : Matrix) er ec m2, Matrix.get_submatrix m er ec = .ok m2 → MatrixInv m2) := by
  refine ⟨fun d m h => make_inv d m h,
    fun m r c v m2 hInv h => set_element_inv m r c v m2 hInv h, ?_⟩
  intro m er ec m2 h
  simp only [Matrix.get_submatrix] at h
  by_cases hb : er < m.rows ∧ ec < m.cols
  · rw [if_pos hb] at h
    exact make_inv _ m2 h
  · rw [if_neg hb] at h
    exact absurd h (by simp)

/-- C7 witness: the 1 by 1 matrix built from the value 1 satisfies the
invariant. -/
theorem claim_C7_witness : MatrixInv ⟨[[1]], 1, 1⟩ :=
  claim_C7.1 [Val.vlist [Val.num 1]] ⟨[[1]], 1, 1⟩ rfl

/-- C8: in the heap model of Python row objects, a successful run of
calculate (or of calculate_with_steps) leaves every pre-existing row
object unchanged — elimination writes only to the fresh copies made by
to_list — so the contents of the input Matrix read through its row
references are identical before and after the call. -/
theorem claim_C8 (h : Heap) (mx : PyMatrix) (hrows : mx.prows = mx.rowIds.length) :
    (∀ q h2, calculateH h mx = .ok (q, h2) → ∀ r, r < h.length → hRead h2 r = hRead h r) ∧
    (∀ q h2, calculate_with_stepsH h mx = .ok (q, h2) →
      ∀ r, r < h.length → hRead h2 r = hRead h r) ∧
    ((∀ rid ∈ mx.rowIds, rid < h.length) → ∀ q h2, calculateH h mx = .ok (q, h2) →
      mx.rowIds.map (hRead h2) = mx.rowIds.map (hRead h)) :=
  ⟨fun q h2 hok => calculateH_frame h mx hrows q h2 hok,
   fun q h2 hok => calculate_with_stepsH_frame h mx hrows q h2 hok,
   fun hb q h2 hok => List.map_congr_left
     (fun rid hrid => calculateH_frame h mx hrows q h2 hok rid (hb rid hrid))⟩

/-- C8 witness: running calculate on a 2 by 2 matrix stored at heap rows
0 and 1 leaves row 0 of the original heap unchanged (the final heap
holds the original rows plus the two working copies). -/
theorem claim_C8_witness :
    hRead [[2,0],[0,3],[2,0],[0,3]] 0 = hRead [[2,0],[0,3]] 0 :=
  (claim_C8 [[2,0],[0,3]] ⟨[0,1],2,2⟩ rfl).1 6 [[2,0],[0,3],[2,0],[0,3]]
    (by norm_num [calculateH, to_listH, tlStep, hRead, elimLoopH, findMaxRowH, maxRowLoop,
      getEH, elimKH, tol, List.range_succ, List.range_zero, List.range', List.getD, swapIds,
      ebind_ok, ebind_error, List.getElem?_cons_zero, List.getElem?_cons_succ])
    0 (by norm_num)

/-- C9: the pre-flight validator returns true exactly when the Matrix
constructor would accept the data and the resulting matrix would be
square. -/
theorem claim_C9 (d : List Val) :
    (validate_matrix_data d).1 = true ↔
      ∃ m, Matrix.make d = .ok m ∧ m.rows = m.cols :=
  validate_iff d

/-- C9 witness: the 1 by 1 data passes validation, matching the
constructor and the square check. -/
theorem claim_C9_witness : (validate_matrix_data [Val.vlist [Val.num 1]]).1 = true :=
  (claim_C9 [Val.vlist [Val.num 1]]).mpr ⟨⟨[[1]], 1, 1⟩, rfl, rfl⟩

/-- C10: for every square Matrix, calculate completes with a value — the
division is guarded by the singularity check, so the division-by-zero
error is unreachable on any input and the not-square check is the only
possible failure. -/
theorem claim_C10 (mx : Matrix) :
    (mx.is_square = true → ∃ q, calculate mx = .ok q) ∧
    calculate mx ≠ .error .zeroDivision := by
  refine ⟨calculate_ok_of_square mx, ?_⟩
  intro hcontra
  cases hsqv : mx.is_square with
  | false =>
    have := calculate_not_square mx hsqv
    rw [hcontra] at this
    cases this
  | true =>
    obtain ⟨q, hq⟩ := calculate_ok_of_square mx hsqv
    rw [hcontra] at hq
    exact absurd hq (by simp)

/-- C10 witness: the square diagonal matrix with entries 2 and 3 yields a
value. -/
theorem claim_C10_witness : ∃ q, calculate ⟨[[2,0],[0,3]],2,2⟩ = .ok q :=
  (claim_C10 ⟨[[2,0],[0,3]],2,2⟩).1 rfl

end DetFinder
